import Mathlib

/-!
Verification of `dstocc` (dirsearch-to-CutyCapt capture driver).

Shallow embedding of `src/dstocc.py`: strings are modelled as `List Char`,
the scan-result document as an association list of base URLs to sub-path
entries, the child process as an abstract exit-time/exit-code record, and
the worker pool as a small-step transition system over an explicit state.
-/

namespace Dstocc

/-- Python 2 `string.letters + string.digits + '-_.='` under the default
(C) locale, from `cutycapt_exec` (`safe_chars`). -/
def safe_chars : List Char :=
  "abcdefghijklmnopqrstuvwxyzABCDEFGHIJKLMNOPQRSTUVWXYZ0123456789-_.=".toList

/-- Membership in the safe character set. -/
def isSafeChar (c : Char) : Bool := safe_chars.contains c

/-- Replacement `url.replace('/', '_')`: a single-character replacement is a
character map. -/
def repSlash (c : Char) : Char := if c = '/' then '_' else c

/-- Replacement `file_name.replace(':', '-')`. -/
def repColon (c : Char) : Char := if c = ':' then '-' else c

/-- The fixed image extension appended to every derived file name. -/
def pngExt : List Char := ".png".toList

/-- Derived output file name of `cutycapt_exec` for a URL:
replace `/` with `_`, then `:` with `-`, keep only safe characters,
append `.png`. -/
def file_name (url : List Char) : List Char :=
  (((url.map repSlash).map repColon).filter isSafeChar) ++ pngExt

/-! ### Scan-result document and target filtering (`load_target_urls`) -/

/-- One sub-path entry of the dirsearch document.  The fields are `Option`s
because a JSON object need not carry a `status` or `path` key; the code
accesses `sub_path['status']` and `sub_path['path']`, which raises a lookup
error when the key is absent. -/
structure RawEntry where
  status : Option Int
  path : Option (List Char)
deriving DecidableEq

/-- A parsed scan-result document: base URLs mapped to their sub-path
entries, in iteration order. -/
abbrev Doc := List (List Char × List RawEntry)

/-- The ways `load_target_urls` can raise: no brace in the input
(`str.index` raises ValueError), invalid JSON after the brace
(`json.loads` raises), or a sub-path entry without a `status`/`path` key
(dictionary lookup raises KeyError). -/
inductive LoadErr where
  | noJsonStart
  | parseFail
  | keyMissing
deriving DecidableEq

/-- Processing of one sub-path entry inside the loop of `load_target_urls`:
read `status`, read `path` (either read raises when missing), then apply
the exclude-first / include-second policy; `some` is an appended target,
`none` a skipped entry. -/
def entryTarget (included excluded : List Int) (url : List Char)
    (e : RawEntry) : Except LoadErr (Option (List Char)) :=
  match e.status with
  | none => .error .keyMissing
  | some st =>
    match e.path with
    | none => .error .keyMissing
    | some p =>
      if excluded.contains st then .ok none
      else if included.isEmpty || included.contains st then .ok (some (url ++ p))
      else .ok none

/-- Inner loop of `load_target_urls` over the sub-paths of one base URL,
appending kept targets to the accumulator. -/
def filterEntries (included excluded : List Int) (url : List Char)
    (acc : List (List Char)) : List RawEntry → Except LoadErr (List (List Char))
  | [] => .ok acc
  | e :: es =>
    match entryTarget included excluded url e with
    | .error err => .error err
    | .ok (some t) => filterEntries included excluded url (acc ++ [t]) es
    | .ok none => filterEntries included excluded url acc es

/-- Outer loop of `load_target_urls` over the base URLs of the document. -/
def filterDoc (included excluded : List Int) (acc : List (List Char)) :
    Doc → Except LoadErr (List (List Char))
  | [] => .ok acc
  | p :: rest =>
    match filterEntries included excluded p.1 acc p.2 with
    | .error err => .error err
    | .ok acc' => filterDoc included excluded acc' rest

/-- Simultaneous swap assignment `x[i], x[j] = x[j], x[i]` used by
`random.shuffle`; out-of-range indices leave the list unchanged (they never
occur in the shuffle). -/
def swapL {α : Type} (l : List α) (i j : Nat) : List α :=
  match l.get? i, l.get? j with
  | some a, some b => (l.set i b).set j a
  | _, _ => l

/-- Fisher-Yates loop of `random.shuffle`: for `i` from `len - 1` down
to `1`, swap position `i` with a drawn position `j ≤ i`.  The randomness
source is an oracle `rand`, reduced modulo `i + 1` exactly as
`int(random() * (i+1))` stays below `i + 1`. -/
def shuffleGo {α : Type} (rand : Nat → Nat) : Nat → List α → List α
  | 0, l => l
  | n + 1, l => shuffleGo rand n (swapL l (n + 1) (rand (n + 1) % (n + 2)))

/-- Model of `random.shuffle` (library primitive used at the end of
`load_target_urls`), driven by the oracle `rand`. -/
def shuffle {α : Type} (rand : Nat → Nat) (l : List α) : List α :=
  shuffleGo rand (l.length - 1) l

/-- Model of `load_target_urls`: find the first brace (`str.index` raises
without one), parse the remainder with the JSON library (modelled as the
function `loads`), filter every (base URL, sub-path) pair, shuffle. -/
def load_target_urls (loads : List Char → Option Doc) (rand : Nat → Nat)
    (results : List Char) (included excluded : List Int) :
    Except LoadErr (List (List Char)) :=
  match results.findIdx? (· = '\x7b') with
  | none => .error .noJsonStart
  | some i =>
    match loads (results.drop i) with
    | none => .error .parseFail
    | some doc =>
      match filterDoc included excluded [] doc with
      | .error err => .error err
      | .ok ts => .ok (shuffle rand ts)

/-- Specification-side keep predicate for one status code: not excluded,
and either no include restriction or included. -/
def keepStatus (included excluded : List Int) (st : Int) : Bool :=
  !excluded.contains st && (included.isEmpty || included.contains st)

/-- Specification-side kept targets of the sub-path entries of one base
URL: every entry whose status passes `keepStatus` contributes
`baseURL ++ path`. -/
def keptEntries (included excluded : List Int) (url : List Char)
    (es : List RawEntry) : List (List Char) :=
  (es.filter fun e =>
    match e.status with
    | some st => keepStatus included excluded st
    | none => false).map fun e => url ++ e.path.getD []

/-- Specification-side list of kept targets of a document, in document
order. -/
def keptTargets (included excluded : List Int) (doc : Doc) : List (List Char) :=
  doc.flatMap fun p => keptEntries included excluded p.1 p.2

/-- Well-formedness of a document: every sub-path entry carries both a
`status` and a `path` key. -/
def wfDoc (doc : Doc) : Bool :=
  doc.all fun p => p.2.all fun e => e.status.isSome && e.path.isSome

/-- Total number of sub-path entries of a document. -/
def totalEntries (doc : Doc) : Nat := (doc.map fun p => p.2.length).sum

/-! ### Child-process execution (`cutycapt_exec`) -/

/-- Abstract child process: `exitsAt = some e` means the process has exited
at every poll from tick `e` on (one tick per 100 ms sleep), `none` means it
never exits; `exitCode` is its eventual `returncode`. -/
structure ChildProcess where
  exitsAt : Option Nat
  exitCode : Int
deriving DecidableEq

/-- Result of `Popen.poll` at tick `t`: the exit code once the process has
exited, `None` while it is running. -/
def poll (p : ChildProcess) (t : Nat) : Option Int :=
  match p.exitsAt with
  | none => none
  | some e => if e ≤ t then some p.exitCode else none

/-- Polling loop of `cutycapt_exec`: while `poll` yields `None` and
`attempts` is nonzero, decrement `attempts` and sleep one tick.  Returns the
final value of `attempts` (the loop's state when it exits). -/
def pollLoop (p : ChildProcess) : Nat → Nat → Nat
  | _, 0 => 0
  | ticks, a + 1 =>
    match poll p ticks with
    | some _ => a + 1
    | none => pollLoop p (ticks + 1) a

/-- Classification of one capture execution. -/
inductive ExecResult where
  | timedOut
  | nonZeroExit (code : Int)
  | success
deriving DecidableEq

/-- Outcome of `cutycapt_exec` after the process was spawned: its
classification plus whether `terminate` was called on the child. -/
structure ExecOutcome where
  result : ExecResult
  terminated : Bool
deriving DecidableEq

/-- Poll-and-classify part of `cutycapt_exec`: run the polling loop with a
budget of `timeout * 10` attempts of 100 ms each; if the budget was
exhausted (`if not attempts`), terminate the child and report a timeout;
otherwise classify by the exit code. -/
def cutycapt_exec_outcome (p : ChildProcess) (timeout : Nat) : ExecOutcome :=
  let attempts := pollLoop p 0 (timeout * 10)
  if attempts = 0 then ⟨.timedOut, true⟩
  else if p.exitCode ≠ 0 then ⟨.nonZeroExit p.exitCode, false⟩
  else ⟨.success, false⟩

/-! ### Command construction (`cutycapt_exec`, command template) -/

/-- Token `%URL%` of the command template. -/
def urlToken : List Char := "%URL%".toList

/-- Token `%FILENAME%` of the command template. -/
def filenameToken : List Char := "%FILENAME%".toList

/-- Fuelled worker for `replaceAll`; the fuel starts at the length of the
subject and only ever exceeds the remaining length, so the `0, l => l`
default branch is never taken on the initial call. -/
def replaceAllGo (pat rep : List Char) : Nat → List Char → List Char
  | _, [] => []
  | 0, l => l
  | fuel + 1, c :: rest =>
    if pat.isPrefixOf (c :: rest) && !pat.isEmpty then
      rep ++ replaceAllGo pat rep fuel (rest.drop (pat.length - 1))
    else c :: replaceAllGo pat rep fuel rest

/-- Model of Python `str.replace(pat, rep)`: scan left to right, replace
each non-overlapping occurrence of `pat` by `rep`. -/
def replaceAll (pat rep l : List Char) : List Char :=
  replaceAllGo pat rep l.length l

/-- Model of Python `str.split(' ')` used by `command.split(' ')`: cut at
every single space character; consecutive separators produce empty
pieces, and no other character separates. -/
def splitSpace : List Char → List (List Char)
  | [] => [[]]
  | c :: rest =>
    if c = ' ' then [] :: splitSpace rest
    else
      match splitSpace rest with
      | [] => [[c]]
      | piece :: ps => (c :: piece) :: ps

/-- Argument list handed to `subprocess.Popen`: substitute `%URL%`, then
`%FILENAME%`, then split the command string on single spaces. -/
def build_command (template url fname : List Char) : List (List Char) :=
  splitSpace (replaceAll filenameToken fname (replaceAll urlToken url template))

/-- Python whitespace characters (`str.split()` with no separator). -/
def pySpace (c : Char) : Bool :=
  c ∈ [' ', '\t', '\n', '\r', '\x0b', '\x0c']

/-- Modelled from the spec: splitting "on whitespace into discrete
arguments", i.e. Python `str.split()` with no separator argument — cut at
maximal runs of whitespace and drop empty pieces.  `cur` is the word
accumulated so far. -/
def splitWhitespaceAux : List Char → List Char → List (List Char)
  | [], cur => if cur.isEmpty then [] else [cur]
  | c :: rest, cur =>
    if pySpace c then
      if cur.isEmpty then splitWhitespaceAux rest []
      else cur :: splitWhitespaceAux rest []
    else splitWhitespaceAux rest (cur ++ [c])

/-- Modelled from the spec: whitespace splitting of a command string. -/
def splitWhitespace (l : List Char) : List (List Char) :=
  splitWhitespaceAux l []

/-- Words joined by single spaces; the shape of a command string for which
space-splitting and whitespace-splitting agree. -/
def joinSpaces : List (List Char) → List Char
  | [] => []
  | [w] => w
  | w :: ws => w ++ ' ' :: joinSpaces ws

/-! ### Spawning and the worker pool (`cutycapt_worker`, `main`) -/

/-- Ways `subprocess.Popen` itself can raise before any process exists. -/
inductive SpawnErr where
  | fileNotFound
  | permissionDenied
deriving DecidableEq

/-- Spawn environment: what `subprocess.Popen` does for the command built
from each URL — either a live child process or an exception. -/
def SpawnEnv : Type := List Char → Except SpawnErr ChildProcess

/-- Whole-execution model of `cutycapt_exec` for one URL: `Popen` is not
guarded by any handler, so a spawn exception propagates to the caller;
otherwise the poll-and-classify phase runs. -/
def cutycapt_exec_run (spawn : SpawnEnv) (url : List Char) (timeout : Nat) :
    Except SpawnErr ExecOutcome :=
  match spawn url with
  | .error e => .error e
  | .ok p => .ok (cutycapt_exec_outcome p timeout)

/-- State of one worker thread of `cutycapt_worker`: blocked on
`queue.get`, processing a claimed URL, or dead from an uncaught
exception. -/
inductive WorkerState where
  | idle
  | busy (url : List Char)
  | crashed
deriving DecidableEq

/-- State of the pool: the unclaimed queue items, every worker's state, the
acknowledged items (`task_done` called, in order), and items claimed by a
worker that died before acknowledging them. -/
structure PoolState where
  queue : List (List Char)
  workers : List WorkerState
  processed : List (List Char)
  lost : List (List Char)
deriving DecidableEq

/-- Scheduler actions: worker `w` completes a `queue.get`, or worker `w`
finishes its claimed item (running `cutycapt_exec` and, when that returns,
`queue.task_done`). -/
inductive PoolAction where
  | take (w : Nat)
  | finish (w : Nat)
deriving DecidableEq

/-- Initial pool state built by `main`: the queue holds all targets, every
worker is idle, nothing processed. -/
def initPool (targets : List (List Char)) (workerCount : Nat) : PoolState :=
  ⟨targets, List.replicate workerCount .idle, [], []⟩

/-- One scheduler step.  A `take` by an idle worker claims the head of the
queue (`Queue.get` never hands one item to two workers); a `finish` by a
busy worker runs the capture: a spawn exception kills the worker thread
before `task_done`, anything else is acknowledged.  Steps that do not apply
leave the state unchanged. -/
def poolStep (spawn : SpawnEnv) (timeout : Nat) (s : PoolState) :
    PoolAction → PoolState
  | .take w =>
    match s.workers[w]?, s.queue with
    | some .idle, u :: rest =>
      { s with queue := rest, workers := s.workers.set w (.busy u) }
    | _, _ => s
  | .finish w =>
    match s.workers[w]? with
    | some (.busy u) =>
      match cutycapt_exec_run spawn u timeout with
      | .error _ =>
        { s with workers := s.workers.set w .crashed, lost := s.lost ++ [u] }
      | .ok _ =>
        { s with workers := s.workers.set w .idle, processed := s.processed ++ [u] }
    | _ => s

/-- A whole scheduled run of the pool. -/
def poolRun (spawn : SpawnEnv) (timeout : Nat) (s : PoolState) :
    List PoolAction → PoolState
  | [] => s
  | a :: as => poolRun spawn timeout (poolStep spawn timeout s a) as

/-- Items currently claimed by busy workers. -/
def busyItems (ws : List WorkerState) : List (List Char) :=
  ws.filterMap fun w =>
    match w with
    | .busy u => some u
    | _ => none

/-- The item claimed by one worker state, as a zero- or one-element list. -/
def itemOf (w : WorkerState) : List (List Char) :=
  match w with
  | .busy u => [u]
  | _ => []

/-- Every queue item together with where it currently lives: unclaimed,
claimed, lost in a crash, or acknowledged. -/
def poolItems (s : PoolState) : List (List Char) :=
  s.queue ++ busyItems s.workers ++ s.lost ++ s.processed

/-- Sequential schedule driving worker 0 through all items: claim one,
finish it, repeat. -/
def seqActs (targets : List (List Char)) : List PoolAction :=
  targets.flatMap fun _ => [.take 0, .finish 0]

/-- Model of `main` after argument parsing: load targets (any exception
exits 1), exit 1 when nothing matched, otherwise run the pool to
completion — each capture outcome is only logged — and exit 0. -/
def main_exit (loads : List Char → Option Doc) (rand : Nat → Nat)
    (results : List Char) (included excluded : List Int)
    (outcome : List Char → ExecOutcome) : Nat :=
  match load_target_urls loads rand results included excluded with
  | .error _ => 1
  | .ok urls =>
    if urls.isEmpty then 1
    else
      let _ := urls.map outcome
      0

end Dstocc

open Dstocc

/-! ### Polling loop characterization -/

theorem pollLoop_eq_zero_iff (p : ChildProcess) :
    ∀ (a t0 : Nat), pollLoop p t0 a = 0 ↔ ∀ k < a, poll p (t0 + k) = none := by
  intro a
  induction a with
  | zero => intro t0; simp [pollLoop]
  | succ a ih =>
    intro t0
    cases hp : poll p t0 with
    | some c =>
      simp only [pollLoop, hp]
      constructor
      · intro h; exact absurd h (by omega)
      · intro h
        have := h 0 (by omega)
        rw [Nat.add_zero, hp] at this
        exact absurd this (by simp)
    | none =>
      simp only [pollLoop, hp]
      rw [ih (t0 + 1)]
      constructor
      · intro h k hk
        cases k with
        | zero => simpa using hp
        | succ k =>
          have hx := h k (by omega)
          have e : t0 + 1 + k = t0 + (k + 1) := by omega
          rwa [e] at hx
      · intro h k hk
        have hx := h (k + 1) (by omega)
        have e : t0 + 1 + k = t0 + (k + 1) := by omega
        rwa [← e] at hx

/-- C1: the outcome of a capture is classified as timed out exactly when the
child has not exited at any of the `timeout * 10` polls (one per 100 ms)
performed within the budget — never earlier — and in that case the child is
forcibly terminated; if a poll within budget sees the child exited, the
outcome is classified by its exit code (success for 0, non-zero exit
otherwise) and the child is not terminated. -/
theorem cutycapt_timeout_classification (p : ChildProcess) (timeout : Nat) :
    ((cutycapt_exec_outcome p timeout).result = .timedOut ↔
      ∀ k < timeout * 10, poll p k = none) ∧
    ((cutycapt_exec_outcome p timeout).result = .timedOut →
      (cutycapt_exec_outcome p timeout).terminated = true) ∧
    ((∃ k, k < timeout * 10 ∧ poll p k ≠ none) →
      (cutycapt_exec_outcome p timeout).terminated = false ∧
      ((cutycapt_exec_outcome p timeout).result = .success ↔ p.exitCode = 0) ∧
      ((cutycapt_exec_outcome p timeout).result = .nonZeroExit p.exitCode ↔
        p.exitCode ≠ 0)) := by
  have hiff := pollLoop_eq_zero_iff p (timeout * 10) 0
  simp only [Nat.zero_add] at hiff
  by_cases h0 : pollLoop p 0 (timeout * 10) = 0
  · have hres : cutycapt_exec_outcome p timeout = ⟨.timedOut, true⟩ := by
      simp [cutycapt_exec_outcome, h0]
    refine ⟨?_, ?_, ?_⟩
    · rw [hres]; simpa using hiff.mp h0
    · intro _; rw [hres]
    · rintro ⟨k, hk, hpoll⟩
      exact absurd (hiff.mp h0 k hk) hpoll
  · have hall : ¬ ∀ k < timeout * 10, poll p k = none := fun h => h0 (hiff.mpr h)
    by_cases hc : p.exitCode = 0
    · have hres : cutycapt_exec_outcome p timeout = ⟨.success, false⟩ := by
        simp [cutycapt_exec_outcome, h0, hc]
      refine ⟨?_, ?_, ?_⟩
      · rw [hres]; simpa using hall
      · rw [hres]; intro h; exact absurd h (by simp)
      · intro _
        rw [hres]
        exact ⟨rfl, by simpa using hc, by simp [hc]⟩
    · have hres : cutycapt_exec_outcome p timeout = ⟨.nonZeroExit p.exitCode, false⟩ := by
        simp [cutycapt_exec_outcome, h0, hc]
      refine ⟨?_, ?_, ?_⟩
      · rw [hres]; simpa using hall
      · rw [hres]; intro h; exact absurd h (by simp)
      · intro _
        rw [hres]
        exact ⟨rfl, by simpa using hc, by simpa using hc⟩

/-- Witness for C1 at a concrete process that exits with code 0 at tick 5
under a one-second budget. -/
theorem cutycapt_timeout_classification_witness :
    (cutycapt_exec_outcome ⟨some 5, 0⟩ 1).result = .success ∧
    (cutycapt_exec_outcome ⟨some 5, 0⟩ 1).terminated = false := by
  have h := (cutycapt_timeout_classification ⟨some 5, 0⟩ 1).2.2
    ⟨5, by decide, by decide⟩
  exact ⟨h.2.1.mpr rfl, h.1⟩

/-- C5: the derived output file name equals the result of replacing every
slash with an underscore, then every colon with a hyphen, then removing
every character outside {letters, digits, hyphen, underscore, dot, equals},
then appending the fixed `.png` extension; it is a pure deterministic
function of the URL, and it contains no `/` and no `:` characters. -/
theorem filename_derivation_safe (url : List Char) :
    file_name url = (((url.map repSlash).map repColon).filter isSafeChar) ++ pngExt ∧
    (∀ url', url = url' → file_name url = file_name url') ∧
    '/' ∉ file_name url ∧ ':' ∉ file_name url := by
  refine ⟨rfl, fun url' h => by rw [h], ?_, ?_⟩ <;>
  · intro hmem
    rcases List.mem_append.mp hmem with h | h
    · have := (List.mem_filter.mp h).2
      simp [isSafeChar, safe_chars] at this
    · simp [pngExt] at h

/-- Witness for C5 at a concrete URL. -/
theorem filename_derivation_safe_witness :
    file_name "http://x/a".toList = "http-__x_a.png".toList ∧
    file_name "http://x/a".toList = file_name "http://x/a".toList :=
  ⟨by decide, (filename_derivation_safe "http://x/a".toList).2.1 _ rfl⟩

/-- C10: the file-name derivation is not injective: the distinct URLs
`http://a/b` and `http://a_b` derive the same output file name, so their
captures write to the same output file. -/
theorem filename_not_injective :
    file_name "http://a/b".toList = file_name "http://a_b".toList ∧
    "http://a/b".toList ≠ "http://a_b".toList := by
  exact ⟨by decide, by decide⟩

/-! ### The shuffle produces a permutation -/

theorem cons_set_perm {α : Type} (x b : α) :
    ∀ (t : List α) (j : Nat), t.get? j = some b →
      (b :: t.set j x).Perm (x :: t) := by
  intro t
  induction t with
  | nil => intro j h; simp at h
  | cons c t' ih =>
    intro j h
    cases j with
    | zero =>
      simp only [List.get?] at h
      obtain rfl : c = b := Option.some.inj h
      exact List.Perm.swap x c t'
    | succ j =>
      simp only [List.get?] at h
      have step1 : (b :: c :: t'.set j x).Perm (c :: b :: t'.set j x) :=
        List.Perm.swap c b _
      have step2 : (c :: b :: t'.set j x).Perm (c :: x :: t') :=
        (ih j h).cons c
      have step3 : (c :: x :: t').Perm (x :: c :: t') := List.Perm.swap x c t'
      simpa using (step1.trans step2).trans step3

theorem set_set_perm {α : Type} :
    ∀ (l : List α) (i j : Nat) (a b : α),
      l.get? i = some a → l.get? j = some b →
      ((l.set i b).set j a).Perm l := by
  intro l
  induction l with
  | nil => intro i j a b hi _; simp at hi
  | cons x t ih =>
    intro i j a b hi hj
    cases i with
    | zero =>
      have ha : x = a := Option.some.inj (by simpa only [List.get?] using hi)
      cases j with
      | zero =>
        simp only [List.set]
        rw [← ha]
      | succ j =>
        simp only [List.get?] at hj
        simp only [List.set]
        rw [← ha]
        exact cons_set_perm x b t j hj
    | succ i =>
      simp only [List.get?] at hi
      cases j with
      | zero =>
        have hb : x = b := Option.some.inj (by simpa only [List.get?] using hj)
        simp only [List.set]
        rw [← hb]
        exact cons_set_perm x a t i hi
      | succ j =>
        simp only [List.get?] at hj
        simp only [List.set]
        exact (ih i j a b hi hj).cons x

theorem swapL_perm {α : Type} (l : List α) (i j : Nat) :
    (swapL l i j).Perm l := by
  unfold swapL
  cases hi : l.get? i with
  | none => exact List.Perm.refl l
  | some a =>
    cases hj : l.get? j with
    | none => exact List.Perm.refl l
    | some b => exact set_set_perm l i j a b hi hj

theorem shuffleGo_perm {α : Type} (rand : Nat → Nat) :
    ∀ (n : Nat) (l : List α), (shuffleGo rand n l).Perm l := by
  intro n
  induction n with
  | zero => intro l; exact List.Perm.refl l
  | succ n ih =>
    intro l
    exact (ih _).trans (swapL_perm l (n + 1) (rand (n + 1) % (n + 2)))

theorem shuffle_perm {α : Type} (rand : Nat → Nat) (l : List α) :
    (shuffle rand l).Perm l :=
  shuffleGo_perm rand (l.length - 1) l

/-! ### Filtering: normal operation and missing keys -/

theorem filterEntries_ok (included excluded : List Int) (url : List Char) :
    ∀ (es : List RawEntry) (acc : List (List Char)),
      (es.all fun e => e.status.isSome && e.path.isSome) = true →
      filterEntries included excluded url acc es =
        .ok (acc ++ keptEntries included excluded url es) := by
  intro es
  induction es with
  | nil => intro acc _; simp [filterEntries, keptEntries]
  | cons e es ih =>
    intro acc hwf
    obtain ⟨s0, p0⟩ := e
    simp only [List.all_cons, Bool.and_eq_true] at hwf
    obtain ⟨⟨hs, hp⟩, hrest⟩ := hwf
    obtain ⟨st, rfl⟩ : ∃ st, s0 = some st := Option.isSome_iff_exists.mp hs
    obtain ⟨pth, rfl⟩ : ∃ pth, p0 = some pth := Option.isSome_iff_exists.mp hp
    by_cases hex : st ∈ excluded
    · simp [filterEntries, entryTarget, hex, keptEntries, keepStatus,
        List.filter_cons, ih _ hrest]
    · by_cases hinc : included = [] ∨ st ∈ included
      · rcases hinc with hinc | hinc
        · subst hinc
          simp [filterEntries, entryTarget, hex, keptEntries, keepStatus,
            List.filter_cons, ih _ hrest, List.append_assoc]
        · simp [filterEntries, entryTarget, hex, hinc, keptEntries, keepStatus,
            List.filter_cons, ih _ hrest, List.append_assoc]
      · obtain ⟨h1, h2⟩ := not_or.mp hinc
        simp [filterEntries, entryTarget, hex, h1, h2, keptEntries, keepStatus,
          List.filter_cons, ih _ hrest, List.isEmpty_iff]

theorem filterDoc_ok (included excluded : List Int) :
    ∀ (doc : Doc) (acc : List (List Char)),
      wfDoc doc = true →
      filterDoc included excluded acc doc =
        .ok (acc ++ keptTargets included excluded doc) := by
  intro doc
  induction doc with
  | nil => intro acc _; simp [filterDoc, keptTargets]
  | cons p rest ih =>
    intro acc hwf
    simp only [wfDoc, List.all_cons, Bool.and_eq_true] at hwf
    obtain ⟨hp, hrest⟩ := hwf
    have hrest' : wfDoc rest = true := by simpa [wfDoc] using hrest
    simp [filterDoc, filterEntries_ok included excluded p.1 p.2 acc hp,
      ih _ hrest', keptTargets, List.append_assoc]

theorem filterEntries_err (included excluded : List Int) (url : List Char) :
    ∀ (es : List RawEntry) (acc : List (List Char)),
      (es.all fun e => e.status.isSome && e.path.isSome) = false →
      filterEntries included excluded url acc es = .error .keyMissing := by
  intro es
  induction es with
  | nil => intro acc h; simp at h
  | cons e es ih =>
    intro acc h
    cases hse : e.status with
    | none => simp [filterEntries, entryTarget, hse]
    | some st =>
      cases hpe : e.path with
      | none => simp [filterEntries, entryTarget, hse, hpe]
      | some pth =>
        have hes : (es.all fun e => e.status.isSome && e.path.isSome) = false := by
          simp only [List.all_cons, hse, hpe, Option.isSome_some, Bool.true_and] at h
          exact h
        by_cases hex : st ∈ excluded
        · simp [filterEntries, entryTarget, hse, hpe, hex, ih _ hes]
        · by_cases hinc : included = [] ∨ st ∈ included
          · rcases hinc with hinc | hinc
            · subst hinc
              simp [filterEntries, entryTarget, hse, hpe, hex, ih _ hes]
            · simp [filterEntries, entryTarget, hse, hpe, hex, hinc, ih _ hes]
          · obtain ⟨h1, h2⟩ := not_or.mp hinc
            simp [filterEntries, entryTarget, hse, hpe, hex, h1, h2, ih _ hes,
              List.isEmpty_iff]

theorem filterDoc_err (included excluded : List Int) :
    ∀ (doc : Doc) (acc : List (List Char)),
      wfDoc doc = false →
      filterDoc included excluded acc doc = .error .keyMissing := by
  intro doc
  induction doc with
  | nil => intro acc h; simp [wfDoc] at h
  | cons p rest ih =>
    intro acc h
    by_cases hp : (p.2.all fun e => e.status.isSome && e.path.isSome) = true
    · have hrest : wfDoc rest = false := by
        simp only [wfDoc, List.all_cons, hp, Bool.true_and] at h
        simpa [wfDoc] using h
      simp [filterDoc, filterEntries_ok included excluded p.1 p.2 acc hp,
        ih _ hrest]
    · have hp' : (p.2.all fun e => e.status.isSome && e.path.isSome) = false :=
        Bool.eq_false_iff.mpr hp
      simp [filterDoc, filterEntries_err included excluded p.1 p.2 acc hp']

/-- C2: for a well-formed parsed document the filtering loop keeps
`baseURL ++ subPath.path` exactly for the pairs whose status passes the
keep predicate; the keep predicate holds iff the status is not excluded
and (the include list is empty or contains it); a status present in both
lists is never kept — exclusion is evaluated first and wins. -/
theorem filter_include_exclude_policy (included excluded : List Int)
    (doc : Doc) (hwf : wfDoc doc = true) :
    filterDoc included excluded [] doc =
      .ok (keptTargets included excluded doc) ∧
    (∀ st, keepStatus included excluded st = true ↔
      (st ∉ excluded ∧ (included = [] ∨ st ∈ included))) ∧
    (∀ st, st ∈ included → st ∈ excluded →
      keepStatus included excluded st = false) := by
  refine ⟨by simpa using filterDoc_ok included excluded doc [] hwf, ?_, ?_⟩
  · intro st
    simp [keepStatus, List.isEmpty_iff]
  · intro st _ hex
    simp [keepStatus, hex]

/-- Witness for C2 at the two-entry document of the spec scenarios. -/
theorem filter_include_exclude_policy_witness :
    filterDoc [200] [404] []
      [("http://x".toList,
        [⟨some 200, some "/a".toList⟩, ⟨some 404, some "/b".toList⟩])] =
      .ok ["http://x/a".toList] := by
  have h := (filter_include_exclude_policy [200] [404]
    [("http://x".toList,
      [⟨some 200, some "/a".toList⟩, ⟨some 404, some "/b".toList⟩])]
    (by decide)).1
  rw [h]
  rfl

/-- C9: if any sub-path entry of the parsed document lacks a status or a
path key, the lookup error aborts the whole load — no target list is
produced, so no entry of the document becomes a target — and the program
exits with status 1. -/
theorem missing_key_aborts_load (loads : List Char → Option Doc)
    (rand : Nat → Nat) (results : List Char) (included excluded : List Int)
    (outcome : List Char → ExecOutcome) (doc : Doc) (i : Nat)
    (hbrace : results.findIdx? (· = '\x7b') = some i)
    (hparse : loads (results.drop i) = some doc)
    (hbad : ∃ p ∈ doc, ∃ e ∈ p.2, e.status = none ∨ e.path = none) :
    load_target_urls loads rand results included excluded =
      .error .keyMissing ∧
    main_exit loads rand results included excluded outcome = 1 := by
  have hwf : wfDoc doc = false := by
    obtain ⟨p, hpmem, e, hemem, hbad⟩ := hbad
    apply Bool.eq_false_iff.mpr
    intro hall
    simp only [wfDoc, List.all_eq_true, Bool.and_eq_true] at hall
    have h := hall p hpmem e hemem
    rcases hbad with hb | hb <;> simp [hb] at h
  have hload : load_target_urls loads rand results included excluded =
      .error .keyMissing := by
    simp [load_target_urls, hbrace, hparse,
      filterDoc_err included excluded doc [] hwf]
  exact ⟨hload, by simp [main_exit, hload]⟩

/-- Witness for C9 at a one-entry document missing its path key. -/
theorem missing_key_aborts_load_witness :
    main_exit (fun _ => some [("http://x".toList, [⟨some 200, none⟩])]) id
      "\x7b".toList [] [] (fun _ => ⟨.success, false⟩) = 1 :=
  (missing_key_aborts_load
    (fun _ => some [("http://x".toList, [⟨some 200, none⟩])]) id
    "\x7b".toList [] [] (fun _ => ⟨.success, false⟩)
    [("http://x".toList, [⟨some 200, none⟩])] 0
    (by decide) rfl (by decide)).2

/-- C7: for a well-formed parsed document, the target list produced by the
load is a permutation (equal as a multiset) of the targets kept by the
include/exclude policy; its length is at most the total number of sub-path
entries, and on an empty scan result it is the empty sequence. -/
theorem load_targets_perm (loads : List Char → Option Doc) (rand : Nat → Nat)
    (results : List Char) (included excluded : List Int) (doc : Doc) (i : Nat)
    (urls : List (List Char))
    (hbrace : results.findIdx? (· = '\x7b') = some i)
    (hparse : loads (results.drop i) = some doc)
    (hwf : wfDoc doc = true)
    (hload : load_target_urls loads rand results included excluded = .ok urls) :
    urls.Perm (keptTargets included excluded doc) ∧
    urls.length ≤ totalEntries doc ∧
    (doc = [] → urls = []) := by
  have hfd := filterDoc_ok included excluded doc [] hwf
  have hurls : urls = shuffle rand (keptTargets included excluded doc) := by
    simp only [load_target_urls, hbrace, hparse, hfd, List.nil_append,
      Except.ok.injEq] at hload
    exact hload.symm
  have hperm : urls.Perm (keptTargets included excluded doc) := by
    rw [hurls]; exact shuffle_perm rand _
  refine ⟨hperm, ?_, ?_⟩
  · rw [hperm.length_eq, keptTargets, totalEntries, List.length_flatMap]
    apply List.sum_le_sum
    intro p _
    simp only [Function.comp_apply, keptEntries, List.length_map]
    exact List.length_filter_le _ _
  · intro hdoc
    subst hdoc
    simp only [keptTargets, List.flatMap_nil] at hperm
    exact List.perm_nil.mp hperm

/-- Witness for C7 at the two-entry scenario document. -/
theorem load_targets_perm_witness :
    ("http://x/a".toList :: []).Perm
      (keptTargets [200] [404]
        [("http://x".toList,
          [⟨some 200, some "/a".toList⟩, ⟨some 404, some "/b".toList⟩])]) :=
  (load_targets_perm
    (fun _ => some [("http://x".toList,
      [⟨some 200, some "/a".toList⟩, ⟨some 404, some "/b".toList⟩])]) id
    "\x7b".toList [200] [404]
    [("http://x".toList,
      [⟨some 200, some "/a".toList⟩, ⟨some 404, some "/b".toList⟩])] 0
    ["http://x/a".toList]
    (by decide) rfl (by decide) rfl).1

/-- C4: the exit status is 1 when the document cannot be loaded (no brace
in the input, or the remainder after the first brace does not parse) or
when no target matches the filters; once a non-empty target list loads,
the exit status is 0 regardless of the individual capture outcomes. -/
theorem main_exit_codes (loads : List Char → Option Doc) (rand : Nat → Nat)
    (results : List Char) (included excluded : List Int)
    (outcome : List Char → ExecOutcome) :
    (results.findIdx? (· = '\x7b') = none →
      main_exit loads rand results included excluded outcome = 1) ∧
    (∀ i, results.findIdx? (· = '\x7b') = some i →
      loads (results.drop i) = none →
      main_exit loads rand results included excluded outcome = 1) ∧
    (load_target_urls loads rand results included excluded = .ok [] →
      main_exit loads rand results included excluded outcome = 1) ∧
    (∀ urls, urls ≠ [] →
      load_target_urls loads rand results included excluded = .ok urls →
      main_exit loads rand results included excluded outcome = 0 ∧
      ∀ outcome', main_exit loads rand results included excluded outcome =
        main_exit loads rand results included excluded outcome') := by
  refine ⟨?_, ?_, ?_, ?_⟩
  · intro h; simp [main_exit, load_target_urls, h]
  · intro i h1 h2; simp [main_exit, load_target_urls, h1, h2]
  · intro h; simp [main_exit, h]
  · intro urls hne hld
    refine ⟨?_, fun outcome' => ?_⟩ <;>
      simp [main_exit, hld, List.isEmpty_iff, hne]

/-- Witness for C4: an input without a brace exits 1; a one-target run
exits 0 although its capture fails with a non-zero exit code. -/
theorem main_exit_codes_witness :
    main_exit (fun _ => none) id "abc".toList [] []
      (fun _ => ⟨.success, false⟩) = 1 ∧
    main_exit (fun _ => some [("u".toList, [⟨some 200, some "/a".toList⟩])]) id
      "\x7b".toList [] [] (fun _ => ⟨.nonZeroExit 2, false⟩) = 0 := by
  constructor
  · exact (main_exit_codes (fun _ => none) id "abc".toList [] []
      (fun _ => ⟨.success, false⟩)).1 (by decide)
  · exact ((main_exit_codes
      (fun _ => some [("u".toList, [⟨some 200, some "/a".toList⟩])]) id
      "\x7b".toList [] [] (fun _ => ⟨.nonZeroExit 2, false⟩)).2.2.2
      ["u/a".toList] (by decide) rfl).1

/-! ### Worker pool: every item is attempted exactly once -/

theorem busyItems_cons (w : WorkerState) (ws : List WorkerState) :
    busyItems (w :: ws) = itemOf w ++ busyItems ws := by
  cases w <;> simp [busyItems, itemOf, List.filterMap_cons]

theorem busyItems_replicate_idle (n : Nat) :
    busyItems (List.replicate n .idle) = [] := by
  induction n with
  | zero => rfl
  | succ n ih => simp [List.replicate_succ, busyItems_cons, itemOf, ih]

theorem busyItems_set_perm (y : WorkerState) :
    ∀ (ws : List WorkerState) (w : Nat) (x : WorkerState),
      ws[w]? = some x →
      (busyItems (ws.set w y) ++ itemOf x).Perm (itemOf y ++ busyItems ws) := by
  intro ws
  induction ws with
  | nil => intro w x h; simp at h
  | cons a t ih =>
    intro w x h
    cases w with
    | zero =>
      have hax : a = x := Option.some.inj (by simpa using h)
      subst hax
      simp only [List.set, busyItems_cons, List.append_assoc]
      exact List.Perm.append_left _ List.perm_append_comm
    | succ w =>
      simp only [List.getElem?_cons_succ] at h
      simp only [List.set, busyItems_cons, List.append_assoc]
      have step1 := List.Perm.append_left (itemOf a) (ih w x h)
      have step2 : (itemOf a ++ (itemOf y ++ busyItems t)).Perm
          (itemOf y ++ (itemOf a ++ busyItems t)) := by
        rw [← List.append_assoc, ← List.append_assoc]
        exact List.Perm.append_right _ List.perm_append_comm
      exact step1.trans step2

theorem perm_take_step {α : Type} (rest L P B B' : List α) (u : α)
    (hb : B'.Perm (u :: B)) :
    (((rest ++ B') ++ L) ++ P).Perm ((((u :: rest) ++ B) ++ L) ++ P) := by
  have core : (rest ++ B').Perm ((u :: rest) ++ B) :=
    (List.Perm.append_left rest hb).trans List.perm_middle
  exact (core.append_right L).append_right P

theorem perm_finish_lost {α : Type} (Q L P B B' : List α) (u : α)
    (hb : (B' ++ [u]).Perm B) :
    (((Q ++ B') ++ (L ++ [u])) ++ P).Perm (((Q ++ B) ++ L) ++ P) := by
  rw [← Multiset.coe_eq_coe]
  have hb' := Multiset.coe_eq_coe.mpr hb
  simp only [← Multiset.coe_add] at *
  rw [← hb']
  abel

theorem perm_finish_done {α : Type} (Q L P B B' : List α) (u : α)
    (hb : (B' ++ [u]).Perm B) :
    (((Q ++ B') ++ L) ++ (P ++ [u])).Perm (((Q ++ B) ++ L) ++ P) := by
  rw [← Multiset.coe_eq_coe]
  have hb' := Multiset.coe_eq_coe.mpr hb
  simp only [← Multiset.coe_add] at *
  rw [← hb']
  abel

theorem poolStep_items_perm (spawn : SpawnEnv) (timeout : Nat) (s : PoolState)
    (a : PoolAction) :
    (poolItems (poolStep spawn timeout s a)).Perm (poolItems s) := by
  cases a with
  | take w =>
    cases hw : s.workers[w]? with
    | none => simp [poolStep, hw]
    | some ws0 =>
      cases ws0 with
      | idle =>
        cases hq : s.queue with
        | nil => simp [poolStep, hw, hq]
        | cons u rest =>
          have hb := busyItems_set_perm (.busy u) s.workers w .idle hw
          simp only [itemOf, List.append_nil, List.singleton_append] at hb
          simp only [poolStep, hw, hq, poolItems]
          exact perm_take_step rest s.lost s.processed (busyItems s.workers) _ u hb
      | busy u => simp [poolStep, hw]
      | crashed => simp [poolStep, hw]
  | finish w =>
    cases hw : s.workers[w]? with
    | none => simp [poolStep, hw]
    | some ws0 =>
      cases ws0 with
      | idle => simp [poolStep, hw]
      | busy u =>
        have hb := busyItems_set_perm .idle s.workers w (.busy u) hw
        have hb' := busyItems_set_perm .crashed s.workers w (.busy u) hw
        simp only [itemOf, List.nil_append] at hb hb'
        cases hrun : cutycapt_exec_run spawn u timeout with
        | error e =>
          simp only [poolStep, hw, hrun, poolItems]
          exact perm_finish_lost s.queue s.lost s.processed
            (busyItems s.workers) _ u hb'
        | ok o =>
          simp only [poolStep, hw, hrun, poolItems]
          exact perm_finish_done s.queue s.lost s.processed
            (busyItems s.workers) _ u hb
      | crashed => simp [poolStep, hw]

theorem poolRun_items_perm (spawn : SpawnEnv) (timeout : Nat) :
    ∀ (acts : List PoolAction) (s : PoolState),
      (poolItems (poolRun spawn timeout s acts)).Perm (poolItems s) := by
  intro acts
  induction acts with
  | nil => intro s; exact List.Perm.refl _
  | cons a as ih =>
    intro s
    exact (ih _).trans (poolStep_items_perm spawn timeout s a)

theorem poolRun_seq (spawn : SpawnEnv) (timeout : Nat)
    (hok : ∀ u, ∃ p, spawn u = .ok p) :
    ∀ (ts : List (List Char)) (W' : Nat) (proc lost : List (List Char)),
      poolRun spawn timeout
        ⟨ts, .idle :: List.replicate W' .idle, proc, lost⟩ (seqActs ts) =
        ⟨[], .idle :: List.replicate W' .idle, proc ++ ts, lost⟩ := by
  intro ts
  induction ts with
  | nil => intro W' proc lost; simp [seqActs, poolRun]
  | cons u ts ih =>
    intro W' proc lost
    obtain ⟨pp, hpp⟩ := hok u
    have hstep : poolStep spawn timeout
        ⟨u :: ts, .idle :: List.replicate W' .idle, proc, lost⟩ (.take 0) =
        ⟨ts, .busy u :: List.replicate W' .idle, proc, lost⟩ := by
      simp [poolStep, List.set]
    have hstep2 : poolStep spawn timeout
        ⟨ts, .busy u :: List.replicate W' .idle, proc, lost⟩ (.finish 0) =
        ⟨ts, .idle :: List.replicate W' .idle, proc ++ [u], lost⟩ := by
      simp [poolStep, cutycapt_exec_run, hpp, List.set]
    have hacts : seqActs (u :: ts) = .take 0 :: .finish 0 :: seqActs ts := by
      simp [seqActs]
    rw [hacts, poolRun, hstep, poolRun, hstep2, ih W' (proc ++ [u]) lost]
    simp [List.append_assoc]

/-- C8: whatever the scheduling of the workers, when the pool reports
completion (every enqueued item acknowledged, i.e. as many acknowledgements
as targets) the multiset of processed items equals the multiset of targets:
no target skipped, none attempted twice, none retried.  Moreover for any
worker count of at least one — also more workers than targets — a schedule
draining the whole queue exists whenever spawning never fails. -/
theorem worker_pool_exactly_once (spawn : SpawnEnv) (timeout : Nat)
    (targets : List (List Char)) (workerCount : Nat) (acts : List PoolAction)
    (hW : 1 ≤ workerCount)
    (hdone : (poolRun spawn timeout (initPool targets workerCount) acts).processed.length
      = targets.length) :
    (poolRun spawn timeout (initPool targets workerCount) acts).processed.Perm
      targets ∧
    ((∀ u, ∃ p, spawn u = .ok p) → ∃ acts',
      (poolRun spawn timeout (initPool targets workerCount) acts').processed
        = targets) := by
  constructor
  · have hperm := poolRun_items_perm spawn timeout acts (initPool targets workerCount)
    have hinit : poolItems (initPool targets workerCount) = targets := by
      simp [poolItems, initPool, busyItems_replicate_idle]
    rw [hinit] at hperm
    have hlen := hperm.length_eq
    simp only [poolItems, List.length_append] at hlen
    have hq := List.length_eq_zero.mp (show
      (poolRun spawn timeout (initPool targets workerCount) acts).queue.length = 0
      by omega)
    have hb := List.length_eq_zero.mp (show
      (busyItems (poolRun spawn timeout (initPool targets workerCount) acts).workers).length = 0
      by omega)
    have hl := List.length_eq_zero.mp (show
      (poolRun spawn timeout (initPool targets workerCount) acts).lost.length = 0
      by omega)
    simpa [poolItems, hq, hb, hl] using hperm
  · intro hok
    refine ⟨seqActs targets, ?_⟩
    obtain ⟨W', rfl⟩ : ∃ W', workerCount = W' + 1 :=
      ⟨workerCount - 1, by omega⟩
    have hinit : initPool targets (W' + 1) =
        ⟨targets, .idle :: List.replicate W' .idle, [], []⟩ := by
      simp [initPool, List.replicate_succ]
    rw [hinit, poolRun_seq spawn timeout hok targets W' [] []]
    simp

/-- Witness for C8: two targets, three workers, a schedule that drains the
queue. -/
theorem worker_pool_exactly_once_witness :
    (poolRun (fun _ => .ok ⟨some 0, 0⟩) 1
      (initPool ["a".toList, "b".toList] 3)
      [.take 0, .finish 0, .take 1, .finish 1]).processed.Perm
      ["a".toList, "b".toList] :=
  (worker_pool_exactly_once (fun _ => .ok ⟨some 0, 0⟩) 1
    ["a".toList, "b".toList] 3 [.take 0, .finish 0, .take 1, .finish 1]
    (by decide) (by decide)).1

/-- C3 (counterexample): at a spawn environment whose capture command cannot
be started, capture does not return a spawn-failure outcome — the error
propagates out uncaught — and the worker that invoked it does not continue:
it ends up crashed, the claimed item is lost, and nothing is acknowledged. -/
theorem spawn_failure_not_contained_cex :
    cutycapt_exec_run (fun _ => .error .fileNotFound) "http://u".toList 1 =
      .error .fileNotFound ∧
    (poolStep (fun _ => .error .fileNotFound) 1
      ⟨[], [.busy "http://u".toList], [], []⟩ (.finish 0)).workers =
      [.crashed] ∧
    (poolStep (fun _ => .error .fileNotFound) 1
      ⟨[], [.busy "http://u".toList], [], []⟩ (.finish 0)).processed = [] ∧
    (poolStep (fun _ => .error .fileNotFound) 1
      ⟨[], [.busy "http://u".toList], [], []⟩ (.finish 0)).lost =
      ["http://u".toList] :=
  ⟨rfl, rfl, rfl, rfl⟩

/-- C3 (amended): for every url whose capture command cannot be spawned,
the spawn error propagates uncaught out of the capture call (no
spawn-failure outcome is produced); the worker thread that invoked it
crashes instead of continuing, and the claimed item is lost, never
acknowledged. -/
theorem spawn_failure_crashes_worker (spawn : SpawnEnv) (url : List Char)
    (timeout : Nat) (e : SpawnErr) (hspawn : spawn url = .error e) :
    cutycapt_exec_run spawn url timeout = .error e ∧
    (∀ (s : PoolState) (w : Nat), s.workers[w]? = some (.busy url) →
      (poolStep spawn timeout s (.finish w)).workers =
        s.workers.set w .crashed ∧
      (poolStep spawn timeout s (.finish w)).processed = s.processed ∧
      (poolStep spawn timeout s (.finish w)).lost = s.lost ++ [url]) := by
  have hrun : cutycapt_exec_run spawn url timeout = .error e := by
    simp [cutycapt_exec_run, hspawn]
  refine ⟨hrun, fun s w hw => ?_⟩
  simp [poolStep, hw, hrun]

/-- Witness for the amended C3 at a concrete failing spawn environment. -/
theorem spawn_failure_crashes_worker_witness :
    cutycapt_exec_run (fun _ => .error .permissionDenied) "u".toList 2 =
      .error .permissionDenied ∧
    (poolStep (fun _ => .error .permissionDenied) 2
      ⟨[], [.busy "u".toList], [], []⟩ (.finish 0)).lost = ["u".toList] := by
  have h := spawn_failure_crashes_worker (fun _ => .error .permissionDenied)
    "u".toList 2 .permissionDenied rfl
  exact ⟨h.1, (h.2 ⟨[], [.busy "u".toList], [], []⟩ 0 rfl).2.2⟩

/-! ### Command splitting: single spaces versus whitespace -/

theorem splitSpace_no_space : ∀ (w : List Char), (∀ c ∈ w, c ≠ ' ') →
    splitSpace w = [w] := by
  intro w
  induction w with
  | nil => intro _; rfl
  | cons c w ih =>
    intro h
    have hc : c ≠ ' ' := h c (by simp)
    have hw := ih fun c hc' => h c (by simp [hc'])
    simp [splitSpace, hc, hw]

theorem splitSpace_word_sep : ∀ (w t : List Char), (∀ c ∈ w, c ≠ ' ') →
    splitSpace (w ++ ' ' :: t) = w :: splitSpace t := by
  intro w
  induction w with
  | nil => intro t _; simp [splitSpace]
  | cons c w ih =>
    intro t h
    have hc : c ≠ ' ' := h c (by simp)
    have hw := ih t fun c hc' => h c (by simp [hc'])
    simp [splitSpace, hc, hw]

theorem splitSpace_joinSpaces : ∀ (words : List (List Char)),
    (∀ w ∈ words, ∀ c ∈ w, c ≠ ' ') → words ≠ [] →
    splitSpace (joinSpaces words) = words := by
  intro words
  induction words with
  | nil => intro _ h; exact absurd rfl h
  | cons w ws ih =>
    intro h _
    cases ws with
    | nil => exact splitSpace_no_space w (h w (by simp))
    | cons w2 ws2 =>
      have hj : joinSpaces (w :: w2 :: ws2) =
          w ++ ' ' :: joinSpaces (w2 :: ws2) := rfl
      rw [hj, splitSpace_word_sep w _ (h w (by simp)),
        ih (fun x hx => h x (by simp [hx])) (by simp)]

theorem wsAux_word : ∀ (w t cur : List Char),
    (∀ c ∈ w, pySpace c = false) →
    splitWhitespaceAux (w ++ t) cur = splitWhitespaceAux t (cur ++ w) := by
  intro w
  induction w with
  | nil => intro t cur _; simp
  | cons c w ih =>
    intro t cur h
    have hc : pySpace c = false := h c (by simp)
    have hw := ih t (cur ++ [c]) fun c hc' => h c (by simp [hc'])
    simp only [List.cons_append, splitWhitespaceAux, hc, Bool.false_eq_true,
      if_false, List.append_eq]
    rw [hw]
    simp [List.append_assoc]

theorem splitWhitespace_joinSpaces : ∀ (words : List (List Char)),
    (∀ w ∈ words, w ≠ [] ∧ ∀ c ∈ w, pySpace c = false) →
    splitWhitespace (joinSpaces words) = words := by
  intro words
  induction words with
  | nil => intro _; rfl
  | cons w ws ih =>
    intro h
    obtain ⟨hne, hw⟩ := h w (by simp)
    cases ws with
    | nil =>
      show splitWhitespaceAux (joinSpaces [w]) [] = [w]
      have h1 := wsAux_word w [] [] hw
      simp only [List.append_nil, List.nil_append] at h1
      rw [show joinSpaces [w] = w from rfl, h1]
      simp [splitWhitespaceAux, List.isEmpty_iff, hne]
    | cons w2 ws2 =>
      have hj : joinSpaces (w :: w2 :: ws2) =
          w ++ ' ' :: joinSpaces (w2 :: ws2) := rfl
      have h1 := wsAux_word w (' ' :: joinSpaces (w2 :: ws2)) [] hw
      simp only [List.nil_append] at h1
      have h2 : splitWhitespaceAux (' ' :: joinSpaces (w2 :: ws2)) w =
          w :: splitWhitespaceAux (joinSpaces (w2 :: ws2)) [] := by
        simp [splitWhitespaceAux, pySpace, List.isEmpty_iff, hne]
      have h3 : splitWhitespaceAux (joinSpaces (w2 :: ws2)) [] = w2 :: ws2 :=
        ih fun x hx => h x (by simp [hx])
      show splitWhitespaceAux (joinSpaces (w :: w2 :: ws2)) [] = w :: w2 :: ws2
      rw [hj, h1, h2, h3]

/-- C6 (counterexample): for a template containing a tab, the argument list
the code builds is not the substituted template split on whitespace — the
tab does not separate arguments, the command is only cut at single
spaces. -/
theorem command_split_cex :
    build_command "a\tb".toList "u".toList "f".toList ≠
      splitWhitespace (replaceAll filenameToken "f".toList
        (replaceAll urlToken "u".toList "a\tb".toList)) ∧
    build_command "a\tb".toList "u".toList "f".toList = ["a\tb".toList] ∧
    splitWhitespace (replaceAll filenameToken "f".toList
      (replaceAll urlToken "u".toList "a\tb".toList)) =
      ["a".toList, "b".toList] := by
  refine ⟨?_, ?_, ?_⟩ <;> decide

/-- C6 (amended): whenever the substituted command consists of nonempty
whitespace-free words separated by single spaces, the argument list passed
to the spawned process equals the template with every occurrence of the URL
and file-name tokens substituted literally, split on whitespace into
discrete arguments, with no shell interpretation of quoting. -/
theorem command_split_spec (template url fname : List Char)
    (words : List (List Char)) (hne : words ≠ [])
    (hwords : ∀ w ∈ words, w ≠ [] ∧ ∀ c ∈ w, pySpace c = false)
    (hsub : replaceAll filenameToken fname (replaceAll urlToken url template) =
      joinSpaces words) :
    build_command template url fname = words ∧
    build_command template url fname =
      splitWhitespace (replaceAll filenameToken fname
        (replaceAll urlToken url template)) := by
  have hspace : ∀ w ∈ words, ∀ c ∈ w, c ≠ ' ' := by
    intro w hw c hc heq
    have hp := (hwords w hw).2 c hc
    subst heq
    simp [pySpace] at hp
  have h1 : build_command template url fname = words := by
    rw [build_command, hsub, splitSpace_joinSpaces words hspace hne]
  refine ⟨h1, ?_⟩
  rw [h1, hsub, splitWhitespace_joinSpaces words hwords]

/-- Witness for the amended C6 at the default CutyCapt template. -/
theorem command_split_spec_witness :
    build_command "CutyCapt --url=%URL% --out=%FILENAME%".toList
      "http://x".toList "f.png".toList =
      ["CutyCapt".toList, "--url=http://x".toList, "--out=f.png".toList] :=
  (command_split_spec "CutyCapt --url=%URL% --out=%FILENAME%".toList
    "http://x".toList "f.png".toList
    ["CutyCapt".toList, "--url=http://x".toList, "--out=f.png".toList]
    (by decide) (by decide) (by decide)).1
